import Mathlib

/-!
Verification of the VNDK dependency test core
(`src/dependency/VtsVndkDependencyTest.py`), shallowly embedded in Lean.

The embedding follows the Python source closely:
* `ElfObject` mirrors the `ElfObject` class (name and directory are derived
  from the target path exactly as `path_utils.TargetBaseName` /
  `TargetDirName` do for POSIX paths).
* `findLibsInSpHalNamespace`, `dfsF` (fuelled depth-first search for
  `_DfsDependencies`), `filterDisallowedDependencies`, the three
  `test*Dependency` predicates and `testElfDependency` are direct
  translations of the corresponding methods.
* External collaborators (regular-expression matching, the enforcement
  signal, the VNDK-SP-extension directory list, file permissions) are
  parameters, as the spec treats them as interfaces.
-/

namespace VndkDep

/-- Python `s.split(sep)` for a single-character separator, over the
character list of a string (kernel-computable, unlike `String.splitOn`). -/
def splitCh (sep : Char) : List Char → List (List Char)
  | [] => [[]]
  | c :: t =>
    let r := splitCh sep t
    if c == sep then [] :: r
    else
      match r with
      | [] => [[c]]
      | h :: rt => (c :: h) :: rt

/-- Python `s.startswith(pre)`. -/
def strStartsWith (s pre : String) : Bool :=
  pre.data.isPrefixOf s.data

/-- Substring search on character lists. -/
def listIsInfix (pat : List Char) : List Char → Bool
  | [] => pat.isEmpty
  | c :: t => pat.isPrefixOf (c :: t) || listIsInfix pat t

/-- Python `pat in s` substring test. -/
def strContainsSub (s pat : String) : Bool :=
  listIsInfix pat.data s.data

/-- Modelled from the spec: `path_utils.TargetBaseName` (not under `src/`)
returns the final path segment of a POSIX target path. -/
def targetBaseName (path : String) : String :=
  String.mk (((splitCh '/' path.data).getLast?).getD [])

/-- Modelled from the spec: `path_utils.TargetDirName` (not under `src/`)
returns the parent path of a POSIX target path. -/
def targetDirName (path : String) : String :=
  String.mk (List.intercalate ['/'] ((splitCh '/' path.data).dropLast))

/-- One parsed binary, mirroring the Python `ElfObject` attributes
`target_path`, `bitness` and `deps`. -/
structure ElfObject where
  target_path : String
  bitness : Nat
  deps : List String
deriving DecidableEq

/-- `self.name = path_utils.TargetBaseName(target_path)`. -/
def ElfObject.name (o : ElfObject) : String :=
  targetBaseName o.target_path

/-- `self.target_dir = path_utils.TargetDirName(target_path)`. -/
def ElfObject.target_dir (o : ElfObject) : String :=
  targetDirName o.target_path

/-- `_SP_HAL_LINK_PATHS` from the source. -/
def SP_HAL_LINK_PATHS : List String :=
  ["/odm/{LIB}/egl", "/odm/{LIB}/hw", "/odm/{LIB}",
   "/vendor/{LIB}/egl", "/vendor/{LIB}/hw", "/vendor/{LIB}"]

/-- `_VENDOR_LINK_PATHS` from the source. -/
def VENDOR_LINK_PATHS : List String :=
  ["/odm/{LIB}/hw", "/odm/{LIB}/egl", "/odm/{LIB}",
   "/vendor/{LIB}/hw", "/vendor/{LIB}/egl", "/vendor/{LIB}"]

/-- `_VENDOR_APP_DIRS` from the source. -/
def VENDOR_APP_DIRS : List String :=
  ["/vendor/app", "/vendor/priv-app", "/odm/app", "/odm/priv-app"]

/-- `_DEFAULT_PROGRAM_INTERPRETERS` from the source. -/
def DEFAULT_PROGRAM_INTERPRETERS : List String :=
  ["/system/bin/linker", "/system/bin/linker64"]

/-- Replaces every occurrence of the five-character `LIB` placeholder
(brace, `L`, `I`, `B`, brace) in a character list by `rep`. -/
def replaceLib (rep : List Char) : List Char → List Char
  | a :: b :: c :: d :: e :: t =>
    if a == '\x7b' && b == 'L' && c == 'I' && d == 'B' && e == '\x7d'
    then rep ++ replaceLib rep t
    else a :: replaceLib rep (b :: c :: d :: e :: t)
  | l => l

/-- Modelled from the spec: `vndk_utils.FormatVndkPath` (not under `src/`)
instantiates a link-path format string at a bitness, replacing the
`LIB` placeholder with `lib` or `lib64`. -/
def formatVndkPath (fmt : String) (bitness : Nat) : String :=
  String.mk (replaceLib (if bitness == 64 then "lib64" else "lib").data fmt.data)

/-- The ordered SP-HAL link directories for one bitness. -/
def spHalLinkPaths (bitness : Nat) : List String :=
  SP_HAL_LINK_PATHS.map (fun p => formatVndkPath p bitness)

/-- The vendor link directories for one bitness. -/
def vendorLinkPaths (bitness : Nat) : List String :=
  VENDOR_LINK_PATHS.map (fun p => formatVndkPath p bitness)

/-- Python `list.index`, for the directory-precedence lookup. -/
def listIndex (l : List String) (x : String) : Nat :=
  match l with
  | [] => 0
  | a :: t => if a == x then 0 else listIndex t x + 1

/-- `min(prev, obj, key=lambda x: sp_hal_link_paths.index(x.target_dir))`:
Python's binary `min` returns the first argument unless the second has a
strictly smaller key. -/
def minByIndex (paths : List String) (prev obj : ElfObject) : ElfObject :=
  if listIndex paths obj.target_dir < listIndex paths prev.target_dir then obj else prev

/-- Python dict assignment `m[k] = v` on an association list: replaces the
binding in place or appends a fresh one. -/
def dictSet (m : List (String × ElfObject)) (k : String) (v : ElfObject) :
    List (String × ElfObject) :=
  match m with
  | [] => [(k, v)]
  | (k', v') :: rest => if k' == k then (k, v) :: rest else (k', v') :: dictSet rest k v

/-- The keys of an association-list dict. -/
def dictKeys (m : List (String × ElfObject)) : List String :=
  m.map Prod.fst

/-- `_FindLibsInSpHalNamespace(bitness, objs)`: the name-to-record map of
libraries in SP-HAL link paths, resolving name collisions by directory
precedence. -/
def findLibsInSpHalNamespace (bitness : Nat) (objs : List ElfObject) :
    List (String × ElfObject) :=
  let sp_hal_link_paths := spHalLinkPaths bitness
  let vendor_libs := objs.filter (fun o =>
    o.bitness == bitness && sp_hal_link_paths.contains o.target_dir)
  vendor_libs.foldl (fun linkable_libs obj =>
    match linkable_libs.lookup obj.name with
    | none => dictSet linkable_libs obj.name obj
    | some prev => dictSet linkable_libs obj.name (minByIndex sp_hal_link_paths prev obj))
    []

/-- `_DfsDependencies(lib, searched, searchable)` with explicit fuel.  The
Python recursion needs no fuel; `dfsDependencies` below instantiates the
fuel at a provably sufficient bound, and `dfsAllF_stable` shows that any
larger fuel computes the same set. -/
def dfsF (ns : List (String × ElfObject)) :
    Nat → ElfObject → List ElfObject → List ElfObject
  | 0, _, searched => searched
  | fuel + 1, lib, searched =>
    if lib ∈ searched then searched
    else lib.deps.foldl (fun acc dep_name =>
      match ns.lookup dep_name with
      | some obj => dfsF ns fuel obj acc
      | none => acc) (lib :: searched)

/-- `_DfsDependencies` at the canonical sufficient fuel. -/
def dfsDependencies (ns : List (String × ElfObject)) (lib : ElfObject)
    (searched : List ElfObject) : List ElfObject :=
  dfsF ns (ns.length + 1) lib searched

/-- The `for root in roots: _DfsDependencies(root, searched, ns)` loop at a
given fuel. -/
def dfsAllF (ns : List (String × ElfObject)) (fuel : Nat)
    (roots : List ElfObject) (searched : List ElfObject) : List ElfObject :=
  roots.foldl (fun s r => dfsF ns fuel r s) searched

/-- The root-loop at the canonical sufficient fuel. -/
def dfsAll (ns : List (String × ElfObject)) (roots : List ElfObject)
    (searched : List ElfObject) : List ElfObject :=
  dfsAllF ns (ns.length + 1) roots searched

/-- `_FilterDisallowedDependencies(objs, is_allowed_dependency)`: the loop
appending `(target_path, disallowed_libs)` for every record with a
non-empty disallowed-dependency list. -/
def filterDisallowedDependencies (objs : List ElfObject)
    (is_allowed_dependency : String → ElfObject → Bool) :
    List (String × List String) :=
  objs.foldl (fun dep_errors obj =>
    let disallowed_libs := obj.deps.filter (fun x => !(is_allowed_dependency x obj))
    if disallowed_libs.isEmpty then dep_errors
    else dep_errors ++ [(obj.target_path, disallowed_libs)]) []

/-- The spec's description of the checker: one entry per record whose
dependency list has at least one rejected name, in input order, carrying
the rejected subsequence. -/
def filterDisallowedDependenciesSpec (objs : List ElfObject)
    (is_allowed_dependency : String → ElfObject → Bool) :
    List (String × List String) :=
  objs.filterMap (fun obj =>
    let disallowed_libs := obj.deps.filter (fun x => !(is_allowed_dependency x obj))
    if disallowed_libs.isEmpty then none
    else some (obj.target_path, disallowed_libs))

/-- Python dict `setdefault(k, set()).add(nm)` on an association list of
name sets (kept as lists; only membership is consumed). -/
def dictAddName (m : List (String × List String)) (k nm : String) :
    List (String × List String) :=
  match m with
  | [] => [(k, [nm])]
  | (k', names) :: rest =>
    if k' == k then (k', names ++ [nm]) :: rest else (k', names) :: dictAddName rest k nm

/-- The `vendor_app_lib_names` dict of `_TestVendorDependency`. -/
def vendorAppLibNames (vendor_objs : List ElfObject) :
    List (String × List String) :=
  vendor_objs.foldl (fun m obj =>
    if VENDOR_APP_DIRS.any (fun app_dir => strStartsWith obj.target_dir (app_dir ++ "/"))
    then dictAddName m obj.target_dir obj.name
    else m) []

/-- `_TestVendorDependency(vendor_objs, vendor_libs)`. -/
def testVendorDependency (ll_ndk vndk vndk_sp : List String)
    (vendor_objs vendor_libs : List ElfObject) : List (String × List String) :=
  let vendor_lib_names := vendor_libs.map ElfObject.name
  let vendor_app_lib_names := vendorAppLibNames vendor_objs
  filterDisallowedDependencies vendor_objs (fun nm obj =>
    ll_ndk.contains nm ||
    vndk.contains nm ||
    vndk_sp.contains nm ||
    vendor_lib_names.contains nm ||
    ((vendor_app_lib_names.lookup obj.target_dir).getD []).contains nm)

/-- `_TestVndkSpExtDependency(vndk_sp_ext_deps, vendor_libs)`. -/
def testVndkSpExtDependency (ll_ndk vndk_sp : List String)
    (vndk_sp_ext_deps vendor_libs : List ElfObject) : List (String × List String) :=
  let vendor_lib_names := vendor_libs.map ElfObject.name
  filterDisallowedDependencies vndk_sp_ext_deps (fun x _obj =>
    ll_ndk.contains x ||
    vndk_sp.contains x ||
    vendor_lib_names.contains x)

/-- `_TestSpHalDependency(sp_hal_libs)`. -/
def testSpHalDependency (ll_ndk vndk_sp : List String)
    (sp_hal_libs : List ElfObject) : List (String × List String) :=
  let sp_hal_lib_names := sp_hal_libs.map ElfObject.name
  filterDisallowedDependencies sp_hal_libs (fun x _obj =>
    ll_ndk.contains x ||
    vndk_sp.contains x ||
    sp_hal_lib_names.contains x)

/-- The SP-HAL roots of `_TestElfDependency`: records of the resolved
namespace whose target path matches one of the compiled SP-HAL patterns
(`x.match(obj.target_path)`); a compiled pattern is modelled as a
string predicate. -/
def spHalRootsOf (sp_hal : List (String → Bool))
    (ns : List (String × ElfObject)) : List ElfObject :=
  (ns.map Prod.snd).filter (fun o => sp_hal.any (fun p => p o.target_path))

/-- The `sp_hal_libs` closure of `_TestElfDependency`. -/
def spHalLibsOf (sp_hal : List (String → Bool)) (bitness : Nat)
    (objs : List ElfObject) : List ElfObject :=
  let ns := findLibsInSpHalNamespace bitness objs
  dfsAll ns (spHalRootsOf sp_hal ns) []

/-- The `vndk_sp_ext_libs` set of `_TestElfDependency`; the extension
directory list (`vndk_utils.GetVndkSpExtDirectories`, not under `src/`)
is a parameter. -/
def vndkSpExtLibsOf (vndk_sp_ext_dirs : List String) (bitness : Nat)
    (objs : List ElfObject) : List ElfObject :=
  objs.filter (fun o => o.bitness == bitness && vndk_sp_ext_dirs.contains o.target_dir)

/-- The `vndk_sp_ext_deps` closure of `_TestElfDependency`, resolved
against the SP-HAL namespace map. -/
def vndkSpExtDepsOf (vndk_sp_ext_dirs : List String) (bitness : Nat)
    (objs : List ElfObject) : List ElfObject :=
  let ns := findLibsInSpHalNamespace bitness objs
  dfsAll ns (vndkSpExtLibsOf vndk_sp_ext_dirs bitness objs) []

/-- The `vendor_libs` set of `_TestElfDependency`. -/
def vendorLibsOf (bitness : Nat) (objs : List ElfObject) : List ElfObject :=
  objs.filter (fun o => o.bitness == bitness && (vendorLinkPaths bitness).contains o.target_dir)

/-- The `vendor_objs` set of `_TestElfDependency`: same-bitness records not
already claimed by the SP-HAL or VNDK-SP-extension closures. -/
def vendorObjsOf (sp_hal : List (String → Bool)) (vndk_sp_ext_dirs : List String)
    (bitness : Nat) (objs : List ElfObject) : List ElfObject :=
  objs.filter (fun o =>
    o.bitness == bitness &&
    !(decide (o ∈ spHalLibsOf sp_hal bitness objs)) &&
    !(decide (o ∈ vndkSpExtDepsOf vndk_sp_ext_dirs bitness objs)))

/-- `_TestElfDependency(bitness, objs)`.  The golden sets, the compiled
SP-HAL patterns, the extension directories and the enforcement signal
(`vndk_utils.IsVndkRuntimeEnforced`, not under `src/`) are parameters. -/
def testElfDependency (ll_ndk vndk vndk_sp : List String)
    (sp_hal : List (String → Bool)) (vndk_sp_ext_dirs : List String)
    (enforced : Bool) (bitness : Nat) (objs : List ElfObject) :
    List (String × List String) :=
  let vendor_libs := vendorLibsOf bitness objs
  let sp_hal_libs := spHalLibsOf sp_hal bitness objs
  let vndk_sp_ext_deps := vndkSpExtDepsOf vndk_sp_ext_dirs bitness objs
  let vendor_objs := vendorObjsOf sp_hal vndk_sp_ext_dirs bitness objs
  let dep_errors := testVendorDependency ll_ndk vndk vndk_sp vendor_objs vendor_libs
  let dep_errors := dep_errors ++
    testVndkSpExtDependency ll_ndk vndk_sp
      (vndk_sp_ext_deps.filter (fun o => !(decide (o ∈ sp_hal_libs)))) vendor_libs
  let dep_errors := if !enforced then [] else dep_errors
  dep_errors ++ testSpHalDependency ll_ndk vndk_sp sp_hal_libs

/-- The parsed facts `_IsElfObjectBuiltForAndroid` consumes from the ELF
parser interface. -/
structure ElfFacts where
  hasAndroidIdent : Bool
  isSharedObject : Bool
  isExecutable : Bool
  programInterpreter : Option String
deriving DecidableEq

/-- `_IsElfObjectBuiltForAndroid(elf, target_path)`; the filesystem execute
permission (`target_file_utils`, not under `src/`) is the `permExecutable`
parameter.  Python string truthiness makes an empty interpreter count as
absent. -/
def isElfObjectBuiltForAndroid (elf : ElfFacts) (permExecutable : Bool)
    (target_path : String) : Bool :=
  if elf.hasAndroidIdent then true
  else if strStartsWith target_path "/vendor/arib/lib/" &&
          strContainsSub target_path ".so" &&
          elf.isSharedObject then false
  else if strStartsWith target_path "/vendor/arib/bin/" &&
          (match elf.programInterpreter with
           | some interp =>
             !(interp == "") &&
             !(DEFAULT_PROGRAM_INTERPRETERS.contains interp) &&
             (elf.isExecutable || permExecutable)
           | none => false) then false
  else true

/-! ### Derived notions used by the verification -/

/-- The body of the dependency loop of `_DfsDependencies`: process one
dependency name against the searchable map. -/
def dfsStep (ns : List (String × ElfObject)) (fuel : Nat)
    (acc : List ElfObject) (dep_name : String) : List ElfObject :=
  match ns.lookup dep_name with
  | some obj => dfsF ns fuel obj acc
  | none => acc

/-- The number of values of the searchable map not yet in the searched
set (counted with multiplicity); it strictly decreases whenever a map
value is newly visited. -/
def unvisited (ns : List (String × ElfObject)) (s : List ElfObject) : Nat :=
  ((ns.map Prod.snd).filter (fun v => !(decide (v ∈ s)))).length

/-- `R` is dependency-closed under `ns` except possibly at records of `S`. -/
def ClosedExcept (ns : List (String × ElfObject)) (R S : List ElfObject) : Prop :=
  ∀ x, x ∈ R → x ∉ S → ∀ d, d ∈ x.deps → ∀ y, ns.lookup d = some y → y ∈ R

/-- `T` is dependency-closed under the searchable map `ns`. -/
def ClosedIn (ns : List (String × ElfObject)) (T : List ElfObject) : Prop :=
  ∀ x, x ∈ T → ∀ d, d ∈ x.deps → ∀ y, ns.lookup d = some y → y ∈ T

/-- One dependency edge: a record declares a name the map resolves. -/
def depStep (ns : List (String × ElfObject)) (a b : ElfObject) : Prop :=
  ∃ d, d ∈ a.deps ∧ ns.lookup d = some b

/-- Reachability along resolved dependency edges. -/
def Reach (ns : List (String × ElfObject)) : ElfObject → ElfObject → Prop :=
  Relation.ReflTransGen (depStep ns)

/-- The candidate records of one name in the SP-HAL namespace
construction, in input order. -/
def candidatesOf (bitness : Nat) (objs : List ElfObject) (nm : String) :
    List ElfObject :=
  ((objs.filter (fun o =>
    o.bitness == bitness && (spHalLinkPaths bitness).contains o.target_dir)).filter
    (fun o => o.name == nm))

/-- Folding the collision rule over a non-empty candidate list. -/
def resolveCollisions (paths : List String) (c : ElfObject)
    (cs : List ElfObject) : ElfObject :=
  cs.foldl (minByIndex paths) c

/-! Concrete records used by counterexamples and witnesses. -/

/-- Scenario D record: the higher-precedence copy of `libhw.so`. -/
def hwObj : ElfObject := ⟨"/vendor/lib64/hw/libhw.so", 64, ["libvndksp.so"]⟩

/-- Scenario D record: the shadowed copy of `libhw.so`. -/
def plainObj : ElfObject := ⟨"/vendor/lib64/libhw.so", 64, ["libforbidden.so"]⟩

/-- A record whose name, but not its full target path, matches an SP-HAL
name pattern. -/
def eglObj : ElfObject := ⟨"/vendor/lib64/egl/libEGL_foo.so", 64, []⟩

/-- A compiled anchored pattern `libEGL.*`, as `re.match` applies it. -/
def eglPattern : String → Bool := fun s => strStartsWith s "libEGL"

/-- A compiled anchored pattern matching vendor target paths. -/
def pathPattern : String → Bool := fun s => strStartsWith s "/vendor"

/-- Collision witness record in the directory at ordered-list position 2. -/
def colA : ElfObject := ⟨"/odm/lib64/libcol.so", 64, []⟩

/-- Collision witness record in the directory at ordered-list position 4. -/
def colB : ElfObject := ⟨"/vendor/lib64/hw/libcol.so", 64, []⟩

/-- A record on a two-cycle, for the termination witness. -/
def cycA : ElfObject := ⟨"/vendor/lib64/liba.so", 64, ["libb.so"]⟩

/-- The other record of the two-cycle. -/
def cycB : ElfObject := ⟨"/vendor/lib64/libb.so", 64, ["liba.so"]⟩

/-- A cyclic searchable map. -/
def cycNs : List (String × ElfObject) := [("liba.so", cycA), ("libb.so", cycB)]

/-- A VNDK-SP-extension record depending on a name found only in the full
VNDK set. -/
def extObj : ElfObject := ⟨"/vendor/lib64/vndk-sp/libext.so", 64, ["libvndkonly.so"]⟩

/-! ### Generic fold and dictionary lemmas -/

theorem foldl_rec {α β : Type} (f : α → β → α) (P : α → Prop) :
    ∀ (l : List β) (init : α), P init →
      (∀ acc b, b ∈ l → P acc → P (f acc b)) → P (l.foldl f init) := by
  intro l
  induction l with
  | nil => intro init h _; simpa using h
  | cons b t ih =>
    intro init h hstep
    simp only [List.foldl_cons]
    exact ih _ (hstep init b (List.mem_cons_self b t) h)
      (fun acc c hc hP => hstep acc c (List.mem_cons_of_mem _ hc) hP)

theorem foldl_acc_subset {α β : Type} (f : List α → β → List α)
    (hf : ∀ acc b, acc ⊆ f acc b) :
    ∀ (l : List β) (acc : List α), acc ⊆ l.foldl f acc := by
  intro l
  induction l with
  | nil =>
    intro acc
    simp only [List.foldl_nil]
    exact List.Subset.refl acc
  | cons b t ih =>
    intro acc
    simp only [List.foldl_cons]
    exact List.Subset.trans (hf acc b) (ih _)

theorem lookup_dictSet_self (m : List (String × ElfObject)) (k : String)
    (v : ElfObject) : (dictSet m k v).lookup k = some v := by
  induction m with
  | nil => simp [dictSet, List.lookup]
  | cons pr t ih =>
    obtain ⟨k', v'⟩ := pr
    by_cases h : k' = k
    · subst h
      simp [dictSet, List.lookup]
    · have hb : (k' == k) = false := beq_eq_false_iff_ne.mpr h
      have hb' : (k == k') = false := beq_eq_false_iff_ne.mpr (fun he => h he.symm)
      simp [dictSet, hb, List.lookup, hb', ih]

theorem lookup_dictSet_ne (m : List (String × ElfObject)) (k k' : String)
    (v : ElfObject) (hk : k ≠ k') :
    (dictSet m k v).lookup k' = m.lookup k' := by
  have hb : (k' == k) = false := beq_eq_false_iff_ne.mpr (fun he => hk he.symm)
  induction m with
  | nil => simp [dictSet, List.lookup, hb]
  | cons pr t ih =>
    obtain ⟨k₀, v₀⟩ := pr
    by_cases h : k₀ = k
    · subst h
      simp [dictSet, List.lookup, hb]
    · have hb0 : (k₀ == k) = false := beq_eq_false_iff_ne.mpr h
      simp only [dictSet, hb0, Bool.false_eq_true, if_false, List.lookup]
      cases hkk : k' == k₀ with
      | true => rfl
      | false => exact ih

theorem dictKeys_dictSet_subset (m : List (String × ElfObject)) (k : String)
    (v : ElfObject) : dictKeys (dictSet m k v) ⊆ k :: dictKeys m := by
  induction m with
  | nil => simp [dictSet, dictKeys]
  | cons pr t ih =>
    obtain ⟨k₀, v₀⟩ := pr
    by_cases h : k₀ = k
    · subst h
      have hset : dictSet ((k₀, v₀) :: t) k₀ v = (k₀, v) :: t := by
        simp [dictSet]
      rw [hset]
      intro a ha
      simp only [dictKeys, List.map_cons, List.mem_cons] at ha ⊢
      rcases ha with ha | ha
      · exact Or.inl ha
      · exact Or.inr (Or.inr ha)
    · have hb : (k₀ == k) = false := beq_eq_false_iff_ne.mpr h
      have hset : dictSet ((k₀, v₀) :: t) k v = (k₀, v₀) :: dictSet t k v := by
        simp [dictSet, hb]
      rw [hset]
      intro a ha
      simp only [dictKeys, List.map_cons, List.mem_cons] at ha ⊢
      rcases ha with ha | ha
      · exact Or.inr (Or.inl ha)
      · rcases List.mem_cons.mp (ih ha) with h1 | h1
        · exact Or.inl h1
        · exact Or.inr (Or.inr h1)

theorem dictKeys_nodup_dictSet (m : List (String × ElfObject)) (k : String)
    (v : ElfObject) (h : (dictKeys m).Nodup) :
    (dictKeys (dictSet m k v)).Nodup := by
  induction m with
  | nil => simp [dictSet, dictKeys]
  | cons pr t ih =>
    obtain ⟨k₀, v₀⟩ := pr
    simp only [dictKeys, List.map_cons, List.nodup_cons] at h
    simp only [dictSet]
    split
    · next hc =>
      have : k₀ = k := by simpa using hc
      subst this
      simp only [dictKeys, List.map_cons, List.nodup_cons]
      exact ⟨h.1, h.2⟩
    · next hc =>
      have hne : k₀ ≠ k := by
        intro he; exact hc (by simp [he])
      simp only [dictKeys, List.map_cons, List.nodup_cons]
      refine ⟨?_, ih h.2⟩
      intro hmem
      have := dictKeys_dictSet_subset t k v hmem
      simp only [List.mem_cons] at this
      rcases this with h1 | h1
      · exact hne h1
      · exact h.1 h1

theorem lookup_mem_values (ns : List (String × ElfObject)) (d : String)
    (y : ElfObject) (h : ns.lookup d = some y) : y ∈ ns.map Prod.snd := by
  induction ns with
  | nil => simp [List.lookup] at h
  | cons pr t ih =>
    obtain ⟨k, v⟩ := pr
    simp only [List.lookup] at h
    cases hk : d == k with
    | true =>
      simp only [hk] at h
      have : v = y := by simpa using h
      simp [this]
    | false =>
      simp only [hk] at h
      exact List.mem_cons_of_mem _ (ih h)

/-! ### The unvisited-count measure for the depth-first search -/

theorem filter_length_mono {α : Type} (p q : α → Bool) :
    ∀ l : List α, (∀ a, a ∈ l → p a = true → q a = true) →
      (l.filter p).length ≤ (l.filter q).length := by
  intro l
  induction l with
  | nil => intro _; simp
  | cons a t ih =>
    intro h
    have ht := ih (fun x hx => h x (List.mem_cons_of_mem _ hx))
    cases hp : p a with
    | true =>
      have hq := h a (List.mem_cons_self a t) hp
      simp [List.filter_cons, hp, hq]
      exact ht
    | false =>
      cases hq : q a with
      | true =>
        simp [List.filter_cons, hp, hq]
        exact Nat.le_succ_of_le ht
      | false =>
        simp [List.filter_cons, hp, hq]
        exact ht

theorem filter_length_lt {α : Type} (p q : α → Bool) (a₀ : α) :
    ∀ l : List α, (∀ a, a ∈ l → p a = true → q a = true) →
      a₀ ∈ l → q a₀ = true → p a₀ = false →
      (l.filter p).length < (l.filter q).length := by
  intro l
  induction l with
  | nil => intro _ h; simp at h
  | cons a t ih =>
    intro h hmem hq0 hp0
    have hmono := filter_length_mono p q t (fun x hx => h x (List.mem_cons_of_mem _ hx))
    rcases List.mem_cons.mp hmem with he | ht
    · subst he
      simp [List.filter_cons, hp0, hq0]
      exact Nat.lt_succ_of_le hmono
    · have hlt := ih (fun x hx => h x (List.mem_cons_of_mem _ hx)) ht hq0 hp0
      cases hp : p a with
      | true =>
        have hq := h a (List.mem_cons_self a t) hp
        simpa [List.filter_cons, hp, hq] using Nat.succ_lt_succ hlt
      | false =>
        cases hq : q a with
        | true =>
          simp [List.filter_cons, hp, hq]
          exact Nat.lt_succ_of_lt hlt
        | false =>
          simpa [List.filter_cons, hp, hq] using hlt

theorem unvisited_le (ns : List (String × ElfObject)) (s : List ElfObject) :
    unvisited ns s ≤ ns.length := by
  unfold unvisited
  calc ((ns.map Prod.snd).filter _).length ≤ (ns.map Prod.snd).length :=
        List.length_filter_le _ _
    _ = ns.length := List.length_map _ _

theorem unvisited_mono (ns : List (String × ElfObject))
    {s s' : List ElfObject} (h : s ⊆ s') :
    unvisited ns s' ≤ unvisited ns s := by
  apply filter_length_mono
  intro a _ ha
  simp only [Bool.not_eq_true', decide_eq_false_iff_not] at ha ⊢
  intro hmem
  exact ha (h hmem)

theorem unvisited_cons_lt (ns : List (String × ElfObject))
    {y : ElfObject} {s : List ElfObject} (hy : y ∈ ns.map Prod.snd)
    (hys : y ∉ s) : unvisited ns (y :: s) < unvisited ns s := by
  apply filter_length_lt _ _ y _ _ hy
  · simp [hys]
  · simp
  · intro a _ ha
    simp only [Bool.not_eq_true', decide_eq_false_iff_not] at ha ⊢
    intro hmem
    exact ha (List.mem_cons_of_mem _ hmem)

/-! ### Properties of the depth-first search -/

theorem dfsF_succ (ns : List (String × ElfObject)) (fuel : Nat)
    (lib : ElfObject) (s : List ElfObject) :
    dfsF ns (fuel + 1) lib s =
      if lib ∈ s then s else lib.deps.foldl (dfsStep ns fuel) (lib :: s) := rfl

theorem dfsF_subset (ns : List (String × ElfObject)) :
    ∀ (fuel : Nat) (lib : ElfObject) (s : List ElfObject),
      s ⊆ dfsF ns fuel lib s := by
  intro fuel
  induction fuel with
  | zero => intro lib s; exact List.Subset.refl s
  | succ n ih =>
    intro lib s
    rw [dfsF_succ]
    split
    · exact List.Subset.refl s
    · refine List.Subset.trans (List.subset_cons_self lib s) ?_
      apply foldl_acc_subset
      intro acc d
      unfold dfsStep
      cases ns.lookup d with
      | some y => exact ih y acc
      | none => exact List.Subset.refl acc

theorem dfsStep_subset (ns : List (String × ElfObject)) (fuel : Nat)
    (acc : List ElfObject) (d : String) : acc ⊆ dfsStep ns fuel acc d := by
  unfold dfsStep
  cases ns.lookup d with
  | some y => exact dfsF_subset ns fuel y acc
  | none => exact List.Subset.refl acc

theorem dfsF_mem_self (ns : List (String × ElfObject)) (fuel : Nat)
    (lib : ElfObject) (s : List ElfObject) :
    lib ∈ dfsF ns (fuel + 1) lib s := by
  rw [dfsF_succ]
  split
  · assumption
  · exact foldl_acc_subset _ (dfsStep_subset ns fuel) _ _ (List.mem_cons_self lib s)

theorem dfsF_sound (ns : List (String × ElfObject)) :
    ∀ (fuel : Nat) (lib : ElfObject) (s : List ElfObject) (x : ElfObject),
      x ∈ dfsF ns fuel lib s → x = lib ∨ x ∈ ns.map Prod.snd ∨ x ∈ s := by
  intro fuel
  induction fuel with
  | zero => intro lib s x hx; exact Or.inr (Or.inr hx)
  | succ n ih =>
    intro lib s x hx
    rw [dfsF_succ] at hx
    by_cases hlib : lib ∈ s
    · rw [if_pos hlib] at hx
      exact Or.inr (Or.inr hx)
    · rw [if_neg hlib] at hx
      refine foldl_rec (dfsStep ns n)
        (fun acc => ∀ z, z ∈ acc → z = lib ∨ z ∈ ns.map Prod.snd ∨ z ∈ s)
        lib.deps (lib :: s) ?_ ?_ x hx
      · intro z hz
        rcases List.mem_cons.mp hz with h | h
        · exact Or.inl h
        · exact Or.inr (Or.inr h)
      · intro acc d _ hP z hz
        unfold dfsStep at hz
        cases hlk : ns.lookup d with
        | none => rw [hlk] at hz; exact hP z hz
        | some y =>
          rw [hlk] at hz
          rcases ih y acc z hz with h | h | h
          · exact Or.inr (Or.inl (h ▸ lookup_mem_values ns d y hlk))
          · exact Or.inr (Or.inl h)
          · exact hP z h

theorem dfsF_reach (ns : List (String × ElfObject)) :
    ∀ (fuel : Nat) (lib : ElfObject) (s : List ElfObject) (x : ElfObject),
      x ∈ dfsF ns fuel lib s → x ∈ s ∨ Reach ns lib x := by
  intro fuel
  induction fuel with
  | zero => intro lib s x hx; exact Or.inl hx
  | succ n ih =>
    intro lib s x hx
    rw [dfsF_succ] at hx
    by_cases hlib : lib ∈ s
    · rw [if_pos hlib] at hx
      exact Or.inl hx
    · rw [if_neg hlib] at hx
      refine foldl_rec (dfsStep ns n)
        (fun acc => ∀ z, z ∈ acc → z ∈ s ∨ Reach ns lib z)
        lib.deps (lib :: s) ?_ ?_ x hx
      · intro z hz
        rcases List.mem_cons.mp hz with h | h
        · exact Or.inr (h ▸ Relation.ReflTransGen.refl)
        · exact Or.inl h
      · intro acc d hd hP z hz
        unfold dfsStep at hz
        cases hlk : ns.lookup d with
        | none => rw [hlk] at hz; exact hP z hz
        | some y =>
          rw [hlk] at hz
          rcases ih y acc z hz with h | h
          · exact hP z h
          · exact Or.inr (Relation.ReflTransGen.head ⟨d, hd, hlk⟩ h)

theorem dfsF_nodup (ns : List (String × ElfObject)) :
    ∀ (fuel : Nat) (lib : ElfObject) (s : List ElfObject),
      s.Nodup → (dfsF ns fuel lib s).Nodup := by
  intro fuel
  induction fuel with
  | zero => intro lib s h; exact h
  | succ n ih =>
    intro lib s h
    rw [dfsF_succ]
    by_cases hlib : lib ∈ s
    · rw [if_pos hlib]; exact h
    · rw [if_neg hlib]
      refine foldl_rec (dfsStep ns n) (fun acc => acc.Nodup)
        lib.deps (lib :: s) (List.nodup_cons.mpr ⟨hlib, h⟩) ?_
      intro acc d _ hP
      unfold dfsStep
      cases ns.lookup d with
      | none => exact hP
      | some y => exact ih y acc hP

theorem dfsF_complete (ns : List (String × ElfObject)) :
    ∀ (fuel : Nat) (lib : ElfObject) (s : List ElfObject),
      (lib ∈ s ∨ unvisited ns (lib :: s) < fuel) →
      s ⊆ dfsF ns fuel lib s ∧ lib ∈ dfsF ns fuel lib s ∧
        ClosedExcept ns (dfsF ns fuel lib s) s := by
  intro fuel
  induction fuel with
  | zero =>
    intro lib s h
    have hlib : lib ∈ s := by
      rcases h with h | h
      · exact h
      · exact absurd h (Nat.not_lt_zero _)
    exact ⟨List.Subset.refl s, hlib, fun x hx hnx => absurd hx hnx⟩
  | succ n ih =>
    intro lib s h
    by_cases hlib : lib ∈ s
    · rw [dfsF_succ, if_pos hlib]
      exact ⟨List.Subset.refl s, hlib, fun x hx hnx => absurd hx hnx⟩
    · have hU : unvisited ns (lib :: s) ≤ n := by
        rcases h with h | h
        · exact absurd h hlib
        · exact Nat.lt_succ_iff.mp h
      rw [dfsF_succ, if_neg hlib]
      have B : ∀ (deps : List String) (s₀ : List ElfObject),
          unvisited ns s₀ ≤ n →
          s₀ ⊆ deps.foldl (dfsStep ns n) s₀ ∧
          (∀ d, d ∈ deps → ∀ y, ns.lookup d = some y →
            y ∈ deps.foldl (dfsStep ns n) s₀) ∧
          ClosedExcept ns (deps.foldl (dfsStep ns n) s₀) s₀ := by
        intro deps
        induction deps with
        | nil =>
          intro s₀ _
          refine ⟨List.Subset.refl _, ?_, ?_⟩
          · intro d hd; exact absurd hd (List.not_mem_nil d)
          · intro x hx hnx; exact absurd hx hnx
        | cons d ds ihd =>
          intro s₀ hU₀
          have hstep : s₀ ⊆ dfsStep ns n s₀ d ∧
              (∀ y, ns.lookup d = some y → y ∈ dfsStep ns n s₀ d) ∧
              ClosedExcept ns (dfsStep ns n s₀ d) s₀ := by
            unfold dfsStep
            cases hlk : ns.lookup d with
            | none =>
              refine ⟨List.Subset.refl _, ?_, fun x hx hnx => absurd hx hnx⟩
              intro y hy
              exact absurd hy (by simp)
            | some y =>
              have hyv : y ∈ ns.map Prod.snd := lookup_mem_values ns d y hlk
              have hyp : y ∈ s₀ ∨ unvisited ns (y :: s₀) < n := by
                by_cases hys : y ∈ s₀
                · exact Or.inl hys
                · exact Or.inr (Nat.lt_of_lt_of_le
                    (unvisited_cons_lt ns hyv hys) hU₀)
              obtain ⟨ha, hb, hc⟩ := ih y s₀ hyp
              refine ⟨ha, ?_, hc⟩
              intro y' hy'
              exact (Option.some.inj hy') ▸ hb
          obtain ⟨h1, h2, h3⟩ := hstep
          have hU₁ : unvisited ns (dfsStep ns n s₀ d) ≤ n :=
            Nat.le_trans (unvisited_mono ns h1) hU₀
          obtain ⟨h4, h5, h6⟩ := ihd (dfsStep ns n s₀ d) hU₁
          rw [List.foldl_cons]
          refine ⟨List.Subset.trans h1 h4, ?_, ?_⟩
          · intro d' hd' y hy
            rcases List.mem_cons.mp hd' with he | ht
            · subst he; exact h4 (h2 y hy)
            · exact h5 d' ht y hy
          · intro x hx hnx d' hd' y hy
            by_cases hx₁ : x ∈ dfsStep ns n s₀ d
            · exact h4 (h3 x hx₁ hnx d' hd' y hy)
            · exact h6 x hx hx₁ d' hd' y hy
      obtain ⟨hB1, hB2, hB3⟩ := B lib.deps (lib :: s) hU
      refine ⟨List.Subset.trans (List.subset_cons_self lib s) hB1,
        hB1 (List.mem_cons_self lib s), ?_⟩
      intro x hx hnx d hd y hy
      by_cases hxl : x = lib
      · subst hxl; exact hB2 d hd y hy
      · have hnx' : x ∉ lib :: s := by
          intro hmem
          rcases List.mem_cons.mp hmem with h' | h'
          · exact hxl h'
          · exact hnx h'
        exact hB3 x hx hnx' d hd y hy

theorem dfsF_fuel_succ (ns : List (String × ElfObject)) :
    ∀ (fuel : Nat) (lib : ElfObject) (s : List ElfObject),
      (lib ∈ s ∨ unvisited ns (lib :: s) < fuel) →
      dfsF ns (fuel + 1) lib s = dfsF ns fuel lib s := by
  intro fuel
  induction fuel with
  | zero =>
    intro lib s h
    have hlib : lib ∈ s := by
      rcases h with h | h
      · exact h
      · exact absurd h (Nat.not_lt_zero _)
    rw [dfsF_succ, if_pos hlib]
    rfl
  | succ n ih =>
    intro lib s h
    by_cases hlib : lib ∈ s
    · rw [dfsF_succ, if_pos hlib, dfsF_succ, if_pos hlib]
    · have hU : unvisited ns (lib :: s) ≤ n := by
        rcases h with h | h
        · exact absurd h hlib
        · exact Nat.lt_succ_iff.mp h
      rw [dfsF_succ, if_neg hlib, dfsF_succ, if_neg hlib]
      have Beq : ∀ (deps : List String) (s₀ : List ElfObject),
          unvisited ns s₀ ≤ n →
          deps.foldl (dfsStep ns (n + 1)) s₀ = deps.foldl (dfsStep ns n) s₀ := by
        intro deps
        induction deps with
        | nil => intro s₀ _; rfl
        | cons d ds ihd =>
          intro s₀ hU₀
          rw [List.foldl_cons, List.foldl_cons]
          have hstepeq : dfsStep ns (n + 1) s₀ d = dfsStep ns n s₀ d := by
            unfold dfsStep
            cases hlk : ns.lookup d with
            | none => rfl
            | some y =>
              apply ih
              by_cases hys : y ∈ s₀
              · exact Or.inl hys
              · exact Or.inr (Nat.lt_of_lt_of_le
                  (unvisited_cons_lt ns (lookup_mem_values ns d y hlk) hys) hU₀)
          rw [hstepeq]
          exact ihd _ (Nat.le_trans (unvisited_mono ns (dfsStep_subset ns n s₀ d)) hU₀)
      exact Beq lib.deps (lib :: s) hU

theorem dfsF_stable (ns : List (String × ElfObject)) :
    ∀ fuel : Nat, ns.length + 1 ≤ fuel → ∀ (lib : ElfObject) (s : List ElfObject),
      dfsF ns fuel lib s = dfsDependencies ns lib s := by
  intro fuel h
  induction fuel, h using Nat.le_induction with
  | base => intro lib s; rfl
  | succ n hn ihn =>
    intro lib s
    rw [← ihn lib s]
    apply dfsF_fuel_succ
    exact Or.inr (Nat.lt_of_le_of_lt (unvisited_le ns (lib :: s))
      (Nat.lt_of_succ_le hn))

theorem dfsF_subset_of_closed (ns : List (String × ElfObject)) :
    ∀ (fuel : Nat) (lib : ElfObject) (s T : List ElfObject),
      ClosedIn ns T → s ⊆ T → lib ∈ T → dfsF ns fuel lib s ⊆ T := by
  intro fuel
  induction fuel with
  | zero => intro lib s T _ hs _; exact hs
  | succ n ih =>
    intro lib s T hT hs hlib
    rw [dfsF_succ]
    split
    · exact hs
    · refine foldl_rec (dfsStep ns n) (fun acc => acc ⊆ T) lib.deps (lib :: s) ?_ ?_
      · intro z hz
        rcases List.mem_cons.mp hz with h | h
        · exact h ▸ hlib
        · exact hs h
      · intro acc d hd hacc
        unfold dfsStep
        cases hlk : ns.lookup d with
        | none => exact hacc
        | some y => exact ih y acc T hT hacc (hT lib hlib d hd y hlk)

/-! ### Properties of the root loop -/

theorem dfsAllF_subset (ns : List (String × ElfObject)) (fuel : Nat)
    (roots s : List ElfObject) : s ⊆ dfsAllF ns fuel roots s := by
  unfold dfsAllF
  exact foldl_acc_subset _ (fun acc r => dfsF_subset ns fuel r acc) roots s

theorem mem_dfsAllF_of_root (ns : List (String × ElfObject)) (fuel : Nat) :
    ∀ (roots s : List ElfObject) (r : ElfObject), r ∈ roots →
      r ∈ dfsAllF ns (fuel + 1) roots s := by
  intro roots
  induction roots with
  | nil => intro s r h; exact absurd h (List.not_mem_nil r)
  | cons r₀ t ih =>
    intro s r h
    rcases List.mem_cons.mp h with he | ht
    · subst he
      exact dfsAllF_subset ns (fuel + 1) t _ (dfsF_mem_self ns fuel r s)
    · exact ih _ r ht

theorem dfsAllF_nodup (ns : List (String × ElfObject)) (fuel : Nat)
    (roots s : List ElfObject) (h : s.Nodup) : (dfsAllF ns fuel roots s).Nodup := by
  unfold dfsAllF
  exact foldl_rec _ (fun acc => acc.Nodup) roots s h
    (fun acc r _ hP => dfsF_nodup ns fuel r acc hP)

theorem dfsAllF_stable (ns : List (String × ElfObject)) :
    ∀ fuel : Nat, ns.length + 1 ≤ fuel → ∀ (roots s : List ElfObject),
      dfsAllF ns fuel roots s = dfsAll ns roots s := by
  intro fuel h roots
  induction roots with
  | nil => intro s; rfl
  | cons r t ih =>
    intro s
    show dfsAllF ns fuel t (dfsF ns fuel r s) = dfsAllF ns (ns.length + 1) t _
    rw [dfsF_stable ns fuel h r s]
    exact ih _

theorem dfsAll_sound (ns : List (String × ElfObject)) (fuel : Nat) :
    ∀ (roots s : List ElfObject) (x : ElfObject), x ∈ dfsAllF ns fuel roots s →
      x ∈ roots ∨ x ∈ ns.map Prod.snd ∨ x ∈ s := by
  intro roots
  induction roots with
  | nil => intro s x hx; exact Or.inr (Or.inr hx)
  | cons r t ih =>
    intro s x hx
    rcases ih _ x hx with h | h | h
    · exact Or.inl (List.mem_cons_of_mem _ h)
    · exact Or.inr (Or.inl h)
    · rcases dfsF_sound ns fuel r s x h with h' | h' | h'
      · exact Or.inl (h' ▸ List.mem_cons_self r t)
      · exact Or.inr (Or.inl h')
      · exact Or.inr (Or.inr h')

theorem dfsAll_reach (ns : List (String × ElfObject)) (fuel : Nat) :
    ∀ (roots s : List ElfObject) (x : ElfObject), x ∈ dfsAllF ns fuel roots s →
      x ∈ s ∨ ∃ r, r ∈ roots ∧ Reach ns r x := by
  intro roots
  induction roots with
  | nil => intro s x hx; exact Or.inl hx
  | cons r t ih =>
    intro s x hx
    rcases ih _ x hx with h | h
    · rcases dfsF_reach ns fuel r s x h with h' | h'
      · exact Or.inl h'
      · exact Or.inr ⟨r, List.mem_cons_self r t, h'⟩
    · obtain ⟨r', hr', hreach⟩ := h
      exact Or.inr ⟨r', List.mem_cons_of_mem _ hr', hreach⟩

theorem dfsAll_closedIn (ns : List (String × ElfObject)) (roots s : List ElfObject)
    (hs : ClosedIn ns s) : ClosedIn ns (dfsAll ns roots s) := by
  unfold dfsAll dfsAllF
  refine foldl_rec _ (fun acc => ClosedIn ns acc) roots s hs ?_
  intro acc r _ hacc
  obtain ⟨ha, _, hc⟩ := dfsF_complete ns (ns.length + 1) r acc
    (Or.inr (Nat.lt_succ_of_le (unvisited_le ns (r :: acc))))
  intro x hx d hd y hy
  by_cases hxa : x ∈ acc
  · exact ha (hacc x hxa d hd y hy)
  · exact hc x hx hxa d hd y hy

theorem dfsAll_subset_of_closed (ns : List (String × ElfObject))
    (roots s T : List ElfObject) (hT : ClosedIn ns T) (hs : s ⊆ T)
    (hr : ∀ r, r ∈ roots → r ∈ T) : dfsAll ns roots s ⊆ T := by
  unfold dfsAll dfsAllF
  refine foldl_rec _ (fun acc => acc ⊆ T) roots s hs ?_
  intro acc r hrr hacc
  exact dfsF_subset_of_closed ns _ r acc T hT hacc (hr r hrr)

/-! ### Properties of the violation checker -/

theorem filterDisallowed_eq_spec (objs : List ElfObject)
    (p : String → ElfObject → Bool) :
    filterDisallowedDependencies objs p = filterDisallowedDependenciesSpec objs p := by
  unfold filterDisallowedDependencies filterDisallowedDependenciesSpec
  have main : ∀ (l : List ElfObject) (acc : List (String × List String)),
      l.foldl (fun dep_errors obj =>
        let disallowed_libs := obj.deps.filter (fun x => !(p x obj))
        if disallowed_libs.isEmpty then dep_errors
        else dep_errors ++ [(obj.target_path, disallowed_libs)]) acc =
      acc ++ l.filterMap (fun obj =>
        let disallowed_libs := obj.deps.filter (fun x => !(p x obj))
        if disallowed_libs.isEmpty then none
        else some (obj.target_path, disallowed_libs)) := by
    intro l
    induction l with
    | nil => intro acc; simp
    | cons obj t ih =>
      intro acc
      simp only [List.foldl_cons, List.filterMap_cons]
      by_cases h : (obj.deps.filter (fun x => !(p x obj))).isEmpty
      · simp only [h, if_pos]
        rw [ih acc]
      · simp only [if_neg h]
        rw [ih (acc ++ [(obj.target_path, obj.deps.filter (fun x => !(p x obj)))])]
        simp
  simpa using main objs []

theorem mem_filterDisallowed (objs : List ElfObject)
    (p : String → ElfObject → Bool) (e : String × List String) :
    e ∈ filterDisallowedDependencies objs p ↔
      ∃ obj, obj ∈ objs ∧ obj.deps.filter (fun x => !(p x obj)) ≠ [] ∧
        e = (obj.target_path, obj.deps.filter (fun x => !(p x obj))) := by
  rw [filterDisallowed_eq_spec]
  unfold filterDisallowedDependenciesSpec
  rw [List.mem_filterMap]
  constructor
  · rintro ⟨obj, hobj, hf⟩
    by_cases h : (obj.deps.filter (fun x => !(p x obj))).isEmpty
    · simp only [h, if_pos] at hf
      exact absurd hf (by simp)
    · simp only [if_neg h] at hf
      refine ⟨obj, hobj, ?_, ?_⟩
      · intro he
        exact h (by simp [he])
      · exact (Option.some.inj hf).symm
  · rintro ⟨obj, hobj, hne, he⟩
    refine ⟨obj, hobj, ?_⟩
    have h : (obj.deps.filter (fun x => !(p x obj))).isEmpty = false := by
      cases hl : obj.deps.filter (fun x => !(p x obj)) with
      | nil => exact absurd hl hne
      | cons a t => simp [hl]
    simp only [h, Bool.false_eq_true, if_false]
    exact congrArg some he.symm

/-! ### Properties of the namespace resolver -/

theorem lookup_findLibs (bitness : Nat) (objs : List ElfObject) (nm : String) :
    (findLibsInSpHalNamespace bitness objs).lookup nm =
      match candidatesOf bitness objs nm with
      | [] => none
      | c :: cs => some (resolveCollisions (spHalLinkPaths bitness) c cs) := by
  have main : ∀ (l : List ElfObject) (m : List (String × ElfObject)),
      (l.foldl (fun linkable_libs obj =>
        match linkable_libs.lookup obj.name with
        | none => dictSet linkable_libs obj.name obj
        | some prev =>
          dictSet linkable_libs obj.name
            (minByIndex (spHalLinkPaths bitness) prev obj)) m).lookup nm =
      (match m.lookup nm, l.filter (fun o => o.name == nm) with
       | acc, [] => acc
       | none, c :: cs => some (resolveCollisions (spHalLinkPaths bitness) c cs)
       | some prevv, c :: cs =>
         some (resolveCollisions (spHalLinkPaths bitness)
           (minByIndex (spHalLinkPaths bitness) prevv c) cs)) := by
    intro l
    induction l with
    | nil =>
      intro m
      simp only [List.foldl_nil, List.filter_nil]
    | cons obj t ih =>
      intro m
      simp only [List.foldl_cons, List.filter_cons]
      by_cases hname : obj.name = nm
      · have hb : (obj.name == nm) = true := beq_iff_eq.mpr hname
        rw [hb]
        cases hm : m.lookup nm with
        | none =>
          have hm' : m.lookup obj.name = none := by rw [hname]; exact hm
          rw [hm', ih (dictSet m obj.name obj)]
          have hl : (dictSet m obj.name obj).lookup nm = some obj := by
            rw [hname]; exact lookup_dictSet_self m nm obj
          rw [hl]
          cases t.filter (fun o => o.name == nm) with
          | nil => simp [resolveCollisions]
          | cons c cs => simp [resolveCollisions, List.foldl_cons]
        | some prevv =>
          have hm' : m.lookup obj.name = some prevv := by rw [hname]; exact hm
          rw [hm', ih _]
          have hl : (dictSet m obj.name
              (minByIndex (spHalLinkPaths bitness) prevv obj)).lookup nm =
              some (minByIndex (spHalLinkPaths bitness) prevv obj) := by
            rw [hname]; exact lookup_dictSet_self m nm _
          rw [hl]
          cases t.filter (fun o => o.name == nm) with
          | nil => simp [resolveCollisions]
          | cons c cs => simp [resolveCollisions, List.foldl_cons]
      · have hb : (obj.name == nm) = false := beq_eq_false_iff_ne.mpr hname
        rw [hb]
        cases hm : m.lookup obj.name with
        | none =>
          rw [ih _]
          have hl : (dictSet m obj.name obj).lookup nm = m.lookup nm :=
            lookup_dictSet_ne m obj.name nm obj hname
          rw [hl]
          simp
        | some prevv =>
          rw [ih _]
          have hl : (dictSet m obj.name
              (minByIndex (spHalLinkPaths bitness) prevv obj)).lookup nm =
              m.lookup nm :=
            lookup_dictSet_ne m obj.name nm _ hname
          rw [hl]
          simp
  have h2 : (findLibsInSpHalNamespace bitness objs).lookup nm =
      (match (none : Option ElfObject), candidatesOf bitness objs nm with
       | acc, [] => acc
       | none, c :: cs => some (resolveCollisions (spHalLinkPaths bitness) c cs)
       | some prevv, c :: cs =>
         some (resolveCollisions (spHalLinkPaths bitness)
           (minByIndex (spHalLinkPaths bitness) prevv c) cs)) := by
    exact main (objs.filter (fun o =>
      o.bitness == bitness && (spHalLinkPaths bitness).contains o.target_dir)) []
  rw [h2]
  cases candidatesOf bitness objs nm with
  | nil => rfl
  | cons c cs => rfl

theorem findLibs_keys_nodup (bitness : Nat) (objs : List ElfObject) :
    (dictKeys (findLibsInSpHalNamespace bitness objs)).Nodup := by
  unfold findLibsInSpHalNamespace
  refine foldl_rec _ (fun m => (dictKeys m).Nodup) _ [] (by simp [dictKeys]) ?_
  intro m obj _ hm
  cases m.lookup obj.name with
  | none => exact dictKeys_nodup_dictSet m obj.name obj hm
  | some prevv => exact dictKeys_nodup_dictSet m obj.name _ hm

theorem findLibs_values (bitness : Nat) (objs : List ElfObject)
    (y : ElfObject) (hy : y ∈ (findLibsInSpHalNamespace bitness objs).map Prod.snd) :
    y.bitness = bitness ∧ y.target_dir ∈ spHalLinkPaths bitness := by
  unfold findLibsInSpHalNamespace at hy
  have P := foldl_rec (β := ElfObject)
    (fun linkable_libs obj =>
      match linkable_libs.lookup obj.name with
      | none => dictSet linkable_libs obj.name obj
      | some prev =>
        dictSet linkable_libs obj.name (minByIndex (spHalLinkPaths bitness) prev obj))
    (fun m => ∀ z, z ∈ m.map Prod.snd →
      z.bitness = bitness ∧ z.target_dir ∈ spHalLinkPaths bitness)
    (objs.filter (fun o =>
      o.bitness == bitness && (spHalLinkPaths bitness).contains o.target_dir)) []
    (by intro z hz; simp at hz) ?_
  · exact P y hy
  · intro m obj hobj hm
    have hQ : obj.bitness = bitness ∧ obj.target_dir ∈ spHalLinkPaths bitness := by
      have := List.of_mem_filter hobj
      simp only [Bool.and_eq_true, beq_iff_eq] at this
      exact ⟨this.1, by
        have := this.2
        simpa [List.contains_iff_exists_mem_beq, beq_iff_eq] using this⟩
    have hvals : ∀ (k : String) (v : ElfObject) (z : ElfObject),
        z ∈ (dictSet m k v).map Prod.snd → z = v ∨ z ∈ m.map Prod.snd := by
      intro k v
      clear hm
      induction m with
      | nil => intro z hz; simp [dictSet] at hz; exact Or.inl hz
      | cons pr t iht =>
        obtain ⟨k₀, v₀⟩ := pr
        intro z hz
        by_cases hk : k₀ = k
        · subst hk
          have : dictSet ((k₀, v₀) :: t) k₀ v = (k₀, v) :: t := by simp [dictSet]
          rw [this] at hz
          simp only [List.map_cons, List.mem_cons] at hz
          rcases hz with h | h
          · exact Or.inl h
          · exact Or.inr (by simp [h])
        · have hb : (k₀ == k) = false := beq_eq_false_iff_ne.mpr hk
          have : dictSet ((k₀, v₀) :: t) k v = (k₀, v₀) :: dictSet t k v := by
            simp [dictSet, hb]
          rw [this] at hz
          simp only [List.map_cons, List.mem_cons] at hz
          rcases hz with h | h
          · exact Or.inr (by simp [h])
          · rcases iht z h with h' | h'
            · exact Or.inl h'
            · exact Or.inr (List.mem_cons_of_mem _ h')
    intro z hz
    beta_reduce at hz
    cases hlkp : m.lookup obj.name with
    | none =>
      rw [hlkp] at hz
      rcases hvals obj.name obj z hz with h | h
      · exact h ▸ hQ
      · exact hm z h
    | some prevv =>
      rw [hlkp] at hz
      rcases hvals obj.name (minByIndex (spHalLinkPaths bitness) prevv obj) z hz with h | h
      · have hprev : prevv.bitness = bitness ∧
            prevv.target_dir ∈ spHalLinkPaths bitness := by
          have : prevv ∈ m.map Prod.snd :=
            lookup_mem_values m obj.name prevv hlkp
          exact hm prevv this
        unfold minByIndex at h
        split at h
        · exact h ▸ hQ
        · exact h ▸ hprev
      · exact hm z h

/-! ### The orchestrator decomposition -/

theorem testElf_decomposition (ll_ndk vndk vndk_sp : List String)
    (sp_hal : List (String → Bool)) (vndk_sp_ext_dirs : List String)
    (enforced : Bool) (bitness : Nat) (objs : List ElfObject) :
    testElfDependency ll_ndk vndk vndk_sp sp_hal vndk_sp_ext_dirs enforced bitness objs =
      (if enforced then
        testVendorDependency ll_ndk vndk vndk_sp
          (vendorObjsOf sp_hal vndk_sp_ext_dirs bitness objs)
          (vendorLibsOf bitness objs) ++
        testVndkSpExtDependency ll_ndk vndk_sp
          ((vndkSpExtDepsOf vndk_sp_ext_dirs bitness objs).filter
            (fun o => !(decide (o ∈ spHalLibsOf sp_hal bitness objs))))
          (vendorLibsOf bitness objs)
      else []) ++
      testSpHalDependency ll_ndk vndk_sp (spHalLibsOf sp_hal bitness objs) := by
  unfold testElfDependency
  cases enforced <;> simp

/-! ### Claims -/

/-- Claim C7: for every input sequence of records and every predicate, the
checker returns, in input record order, exactly one entry
`(target_path, ds)` for each record whose dependency list contains at
least one rejected name, where `ds` is the rejected subsequence of that
record's `deps`; a record with no rejected dependency contributes no
entry.  Stated as equality between the source loop and the spec-side
`filterMap` formulation. -/
theorem claim_C7 (objs : List ElfObject) (p : String → ElfObject → Bool) :
    filterDisallowedDependencies objs p = filterDisallowedDependenciesSpec objs p :=
  filterDisallowed_eq_spec objs p

/-- Claim C4: for every bitness pass, the returned violation list is the
same-process-HAL violations appended after the vendor-namespace and
VNDK-SP-extension violations, the latter two being discarded exactly when
the enforcement signal is false; the same-process-HAL violations are
retained under either value of the signal. -/
theorem claim_C4 (ll_ndk vndk vndk_sp : List String)
    (sp_hal : List (String → Bool)) (vndk_sp_ext_dirs : List String)
    (enforced : Bool) (bitness : Nat) (objs : List ElfObject) :
    testElfDependency ll_ndk vndk vndk_sp sp_hal vndk_sp_ext_dirs enforced bitness objs =
      (if enforced then
        testVendorDependency ll_ndk vndk vndk_sp
          (vendorObjsOf sp_hal vndk_sp_ext_dirs bitness objs)
          (vendorLibsOf bitness objs) ++
        testVndkSpExtDependency ll_ndk vndk_sp
          ((vndkSpExtDepsOf vndk_sp_ext_dirs bitness objs).filter
            (fun o => !(decide (o ∈ spHalLibsOf sp_hal bitness objs))))
          (vendorLibsOf bitness objs)
      else []) ++
      testSpHalDependency ll_ndk vndk_sp (spHalLibsOf sp_hal bitness objs) :=
  testElf_decomposition ll_ndk vndk vndk_sp sp_hal vndk_sp_ext_dirs enforced bitness objs

/-- Claim C2, corrected.  The code keeps every record carrying the
build-origin marker, and a record lacking the marker is excluded exactly
under the two legacy-directory carve-outs: a shared object under
`/vendor/arib/lib/` whose path contains `.so`, and a file under
`/vendor/arib/bin/` with a non-default, non-empty program interpreter
that is an executable or has execute permission.  (The claim had the
polarity reversed: it said records lacking the marker are excluded except
under the carve-outs.) -/
theorem claim_C2_amended (elf : ElfFacts) (permExecutable : Bool) (p : String) :
    isElfObjectBuiltForAndroid elf permExecutable p = false ↔
      (elf.hasAndroidIdent = false ∧
        ((strStartsWith p "/vendor/arib/lib/" = true ∧
            strContainsSub p ".so" = true ∧ elf.isSharedObject = true) ∨
         (strStartsWith p "/vendor/arib/bin/" = true ∧
          ∃ interp, elf.programInterpreter = some interp ∧ interp ≠ "" ∧
            DEFAULT_PROGRAM_INTERPRETERS.contains interp = false ∧
            (elf.isExecutable = true ∨ permExecutable = true)))) := by
  obtain ⟨ident, shared, isexec, pinterp⟩ := elf
  unfold isElfObjectBuiltForAndroid
  cases ident with
  | true => simp
  | false =>
    have hkey : ∀ A B : Bool,
        ((if A = true then (false : Bool) else if B = true then false else true) = false
          ↔ (A = true ∨ B = true)) := by
      intro A B
      cases A <;> cases B <;> simp
    simp only [Bool.false_eq_true, if_false, eq_self_iff_true, true_and]
    rw [hkey]
    cases pinterp with
    | none => simp [Bool.and_eq_true, and_assoc]
    | some i =>
      simp [Bool.and_eq_true, Bool.or_eq_true, Bool.not_eq_true',
        beq_eq_false_iff_ne, and_assoc]

/-- Claim C2 counterexample: a record lacking the marker that lies under
neither carve-out directory is kept by the code, while the claim says it
is excluded. -/
theorem claim_C2_counterexample :
    isElfObjectBuiltForAndroid ⟨false, true, false, none⟩ false
      "/vendor/lib64/libfoo.so" = true ∧
    strStartsWith "/vendor/lib64/libfoo.so" "/vendor/arib/lib/" = false ∧
    strStartsWith "/vendor/lib64/libfoo.so" "/vendor/arib/bin/" = false := by
  decide

/-- Claim C6: the resolved SP-HAL namespace map holds at most one record
per name (its key list has no duplicates), and when exactly two records
with a name survive the bitness and link-directory filter, the map binds
that name to the record whose directory has the lower index in the
ordered SP-HAL path list, in either arrival order. -/
theorem claim_C6 (bitness : Nat) (objs : List ElfObject) :
    (dictKeys (findLibsInSpHalNamespace bitness objs)).Nodup ∧
    ∀ (nm : String) (a b : ElfObject),
      (candidatesOf bitness objs nm = [a, b] ∨ candidatesOf bitness objs nm = [b, a]) →
      listIndex (spHalLinkPaths bitness) a.target_dir <
        listIndex (spHalLinkPaths bitness) b.target_dir →
      (findLibsInSpHalNamespace bitness objs).lookup nm = some a := by
  refine ⟨findLibs_keys_nodup bitness objs, ?_⟩
  intro nm a b hcand hlt
  rw [lookup_findLibs]
  rcases hcand with h | h
  · rw [h]
    show some (resolveCollisions (spHalLinkPaths bitness) a [b]) = some a
    unfold resolveCollisions
    simp only [List.foldl_cons, List.foldl_nil]
    unfold minByIndex
    rw [if_neg (Nat.lt_asymm hlt)]
  · rw [h]
    show some (resolveCollisions (spHalLinkPaths bitness) b [a]) = some a
    unfold resolveCollisions
    simp only [List.foldl_cons, List.foldl_nil]
    unfold minByIndex
    rw [if_pos hlt]

/-- Claim C6 witness at ordered-list positions 2 and 4. -/
theorem claim_C6_witness :
    (candidatesOf 64 [colB, colA] "libcol.so" = [colB, colA] ∧
      listIndex (spHalLinkPaths 64) colA.target_dir <
        listIndex (spHalLinkPaths 64) colB.target_dir) ∧
    (findLibsInSpHalNamespace 64 [colB, colA]).lookup "libcol.so" = some colA :=
  ⟨⟨by decide, by decide⟩,
   (claim_C6 64 [colB, colA]).2 "libcol.so" colA colB (Or.inr (by decide)) (by decide)⟩

/-- Claim C8: for every searchable map (cyclic dependency declarations
included) and every root list, the depth-first traversal stabilises: any
fuel beyond the bound computes the same searched set as the canonical
bound, and the searched set never holds a record twice. -/
theorem claim_C8 (ns : List (String × ElfObject)) (roots : List ElfObject)
    (fuel : Nat) (h : ns.length + 1 ≤ fuel) :
    dfsAllF ns fuel roots [] = dfsAll ns roots [] ∧
    (dfsAllF ns fuel roots []).Nodup :=
  ⟨dfsAllF_stable ns fuel h roots [],
   dfsAllF_nodup ns fuel roots [] List.nodup_nil⟩

/-- Claim C8 witness: a two-cycle terminates with each record visited
once. -/
theorem claim_C8_witness :
    cycNs.length + 1 ≤ 7 ∧
    (dfsAllF cycNs 7 [cycA] [] = dfsAll cycNs [cycA] [] ∧
      (dfsAllF cycNs 7 [cycA] []).Nodup) :=
  ⟨by decide, claim_C8 cycNs [cycA] 7 (by decide)⟩

/-- Claim C9: the transitive closure is idempotent: running the traversal
again with the first run's result as the roots, over the same map, yields
exactly the same set. -/
theorem claim_C9 (ns : List (String × ElfObject)) (roots : List ElfObject)
    (x : ElfObject) :
    x ∈ dfsAll ns (dfsAll ns roots []) [] ↔ x ∈ dfsAll ns roots [] := by
  constructor
  · intro hx
    refine dfsAll_subset_of_closed ns _ [] _ ?_ ?_ ?_ hx
    · exact dfsAll_closedIn ns roots []
        (fun z hz => absurd hz (List.not_mem_nil z))
    · exact List.nil_subset _
    · intro r hr; exact hr
  · intro hx
    exact mem_dfsAllF_of_root ns ns.length _ [] x hx

/-- Claim C10: every record in a closure over the SP-HAL namespace map is
a root or a value of the map; every root is in its closure (so a
VNDK-SP-extension root is included even when its name is absent from the
map); and every non-root member has the pass's bitness and lies in an
SP-HAL link directory. -/
theorem claim_C10 (bitness : Nat) (objs : List ElfObject)
    (roots : List ElfObject) :
    (∀ x, x ∈ dfsAll (findLibsInSpHalNamespace bitness objs) roots [] →
      x ∈ roots ∨ x ∈ (findLibsInSpHalNamespace bitness objs).map Prod.snd) ∧
    (∀ r, r ∈ roots → r ∈ dfsAll (findLibsInSpHalNamespace bitness objs) roots []) ∧
    (∀ ext_dirs r, r ∈ vndkSpExtLibsOf ext_dirs bitness objs →
      r ∈ vndkSpExtDepsOf ext_dirs bitness objs) ∧
    (∀ x, x ∈ dfsAll (findLibsInSpHalNamespace bitness objs) roots [] →
      x ∉ roots → x.bitness = bitness ∧ x.target_dir ∈ spHalLinkPaths bitness) := by
  refine ⟨?_, ?_, ?_, ?_⟩
  · intro x hx
    rcases dfsAll_sound (findLibsInSpHalNamespace bitness objs)
      ((findLibsInSpHalNamespace bitness objs).length + 1) roots [] x hx with h | h | h
    · exact Or.inl h
    · exact Or.inr h
    · exact absurd h (List.not_mem_nil x)
  · intro r hr
    exact mem_dfsAllF_of_root (findLibsInSpHalNamespace bitness objs)
      (findLibsInSpHalNamespace bitness objs).length roots [] r hr
  · intro ext_dirs r hr
    exact mem_dfsAllF_of_root (findLibsInSpHalNamespace bitness objs)
      (findLibsInSpHalNamespace bitness objs).length _ [] r hr
  · intro x hx hnr
    rcases dfsAll_sound (findLibsInSpHalNamespace bitness objs)
      ((findLibsInSpHalNamespace bitness objs).length + 1) roots [] x hx with h | h | h
    · exact absurd h hnr
    · exact findLibs_values bitness objs x h
    · exact absurd h (List.not_mem_nil x)

/-- Claim C10 witness on a concrete closure. -/
theorem claim_C10_witness :
    (cycB ∈ [cycA] ∨ cycB ∈ (findLibsInSpHalNamespace 64 [cycA, cycB]).map Prod.snd) ∧
    cycA ∈ dfsAll (findLibsInSpHalNamespace 64 [cycA, cycB]) [cycA] [] ∧
    extObj ∈ vndkSpExtDepsOf ["/vendor/lib64/vndk-sp"] 64 [extObj] ∧
    (cycB.bitness = 64 ∧ cycB.target_dir ∈ spHalLinkPaths 64) :=
  ⟨(claim_C10 64 [cycA, cycB] [cycA]).1 cycB (by decide),
   (claim_C10 64 [cycA, cycB] [cycA]).2.1 cycA (by decide),
   (claim_C10 64 [extObj] [cycA]).2.2.1 ["/vendor/lib64/vndk-sp"] extObj (by decide),
   (claim_C10 64 [cycA, cycB] [cycA]).2.2.2 cycB (by decide) (by decide)⟩

/-- Claim C3, corrected: a record of the resolved namespace map is used
as a root of the SP-HAL closure exactly when its full target path — not
its name — matches one of the compiled patterns (`x.match(obj.target_path)`);
every member of the closure is reachable from such a root. -/
theorem claim_C3_amended (sp_hal : List (String → Bool))
    (ns : List (String × ElfObject)) (obj : ElfObject) :
    (obj ∈ spHalRootsOf sp_hal ns ↔
      obj ∈ ns.map Prod.snd ∧ sp_hal.any (fun pt => pt obj.target_path) = true) ∧
    (∀ x, x ∈ dfsAll ns (spHalRootsOf sp_hal ns) [] →
      ∃ r, r ∈ spHalRootsOf sp_hal ns ∧ Reach ns r x) := by
  constructor
  · unfold spHalRootsOf
    exact List.mem_filter
  · intro x hx
    rcases dfsAll_reach ns (ns.length + 1) _ [] x hx with h | h
    · exact absurd h (List.not_mem_nil x)
    · exact h

/-- Claim C3 counterexample: a namespace record whose name matches an
SP-HAL pattern but whose target path does not; it is not selected as a
root and its closure is empty, contradicting name-based root selection. -/
theorem claim_C3_counterexample :
    [eglPattern].any (fun pt => pt (ElfObject.name eglObj)) = true ∧
    eglObj ∈ (findLibsInSpHalNamespace 64 [eglObj]).map Prod.snd ∧
    spHalRootsOf [eglPattern] (findLibsInSpHalNamespace 64 [eglObj]) = [] ∧
    spHalLibsOf [eglPattern] 64 [eglObj] = [] := by
  decide

/-- Claim C3 witness for the amended statement. -/
theorem claim_C3_witness :
    (cycA ∈ spHalRootsOf [pathPattern] cycNs ↔
      cycA ∈ cycNs.map Prod.snd ∧
        [pathPattern].any (fun pt => pt cycA.target_path) = true) ∧
    (∃ r, r ∈ spHalRootsOf [pathPattern] cycNs ∧ Reach cycNs r cycB) :=
  ⟨(claim_C3_amended [pathPattern] cycNs cycA).1,
   (claim_C3_amended [pathPattern] cycNs cycA).2 cycB (by decide)⟩

/-- Claim C5: under the VNDK-SP-extension namespace a dependency name of a
checked record is reported exactly when it is in none of `ll_ndk`,
`vndk_sp` and the vendor-namespace name set; the predicate never consults
the full `vndk` set, so a name found only there is reported. -/
theorem claim_C5 (ll_ndk vndk_sp : List String)
    (vndk_sp_ext_deps vendor_libs : List ElfObject) (obj : ElfObject)
    (d : String) (hobj : obj ∈ vndk_sp_ext_deps) (hd : d ∈ obj.deps) :
    (∃ e, e ∈ testVndkSpExtDependency ll_ndk vndk_sp vndk_sp_ext_deps vendor_libs ∧
        e.1 = obj.target_path ∧ d ∈ e.2) ↔
      (ll_ndk.contains d || vndk_sp.contains d ||
        (vendor_libs.map ElfObject.name).contains d) = false := by
  unfold testVndkSpExtDependency
  constructor
  · rintro ⟨e, he, _, hde⟩
    rw [mem_filterDisallowed] at he
    obtain ⟨obj', _, _, heq⟩ := he
    rw [heq] at hde
    have := List.mem_filter.mp hde
    simpa using this.2
  · intro hfalse
    refine ⟨(obj.target_path, obj.deps.filter (fun x =>
      !(ll_ndk.contains x || vndk_sp.contains x ||
        (vendor_libs.map ElfObject.name).contains x))), ?_, rfl, ?_⟩
    · rw [mem_filterDisallowed]
      refine ⟨obj, hobj, ?_, rfl⟩
      intro hempty
      have hmem : d ∈ obj.deps.filter (fun x =>
          !(ll_ndk.contains x || vndk_sp.contains x ||
            (vendor_libs.map ElfObject.name).contains x)) :=
        List.mem_filter.mpr ⟨hd, by rw [hfalse]; rfl⟩
      rw [hempty] at hmem
      exact absurd hmem (List.not_mem_nil d)
    · exact List.mem_filter.mpr ⟨hd, by rw [hfalse]; rfl⟩

/-- Claim C1 counterexample: in Scenario D the SP-HAL namespace map does
bind `libhw.so` to the `/vendor/lib64/hw` record, yet `libforbidden.so`
does appear in the 64-bit pass's violation list — the shadowed copy is
still checked as an ordinary vendor object. -/
theorem claim_C1_counterexample :
    (findLibsInSpHalNamespace 64 [hwObj, plainObj]).lookup "libhw.so" = some hwObj ∧
    ∃ e, e ∈ testElfDependency [] [] ["libvndksp.so"] [] [] true 64 [hwObj, plainObj] ∧
      "libforbidden.so" ∈ e.2 := by
  refine ⟨by decide, ("/vendor/lib64/libhw.so", ["libforbidden.so"]), by decide, by decide⟩

/-- Claim C1, corrected.  With the two Scenario D records, any golden sets
containing `libvndksp.so` in `vndk_sp` and `libforbidden.so` nowhere, any
SP-HAL patterns and no extension directories, the namespace map binds
`libhw.so` to the `/vendor/lib64/hw` record, but when enforcement is
mandatory the violation `("/vendor/lib64/libhw.so", ["libforbidden.so"])`
is reported for the shadowed copy: shadowing suppresses only the SP-HAL
namespace resolution, not the vendor-namespace check of the shadowed
record. -/
theorem claim_C1_amended (ll_ndk vndk vndk_sp : List String)
    (sp_hal : List (String → Bool))
    (_h1 : vndk_sp.contains "libvndksp.so" = true)
    (h2 : ll_ndk.contains "libforbidden.so" = false)
    (h3 : vndk.contains "libforbidden.so" = false)
    (h4 : vndk_sp.contains "libforbidden.so" = false) :
    (findLibsInSpHalNamespace 64 [hwObj, plainObj]).lookup "libhw.so" = some hwObj ∧
    ("/vendor/lib64/libhw.so", ["libforbidden.so"]) ∈
      testElfDependency ll_ndk vndk vndk_sp sp_hal [] true 64 [hwObj, plainObj] := by
  refine ⟨by decide, ?_⟩
  have hext : vndkSpExtDepsOf [] 64 [hwObj, plainObj] = [] := by decide
  have hns : findLibsInSpHalNamespace 64 [hwObj, plainObj] = [("libhw.so", hwObj)] := by
    decide
  have main : ∀ vendor_objs : List ElfObject, plainObj ∈ vendor_objs →
      vendorAppLibNames vendor_objs = [] →
      ("/vendor/lib64/libhw.so", ["libforbidden.so"]) ∈
        testVendorDependency ll_ndk vndk vndk_sp vendor_objs
          (vendorLibsOf 64 [hwObj, plainObj]) := by
    intro vendor_objs hvo happ
    have hnames :
        ((vendorLibsOf 64 [hwObj, plainObj]).map ElfObject.name).contains
          "libforbidden.so" = false := by decide
    simp only [testVendorDependency, happ]
    rw [mem_filterDisallowed]
    have hfilter : plainObj.deps.filter (fun x =>
        !(ll_ndk.contains x || vndk.contains x || vndk_sp.contains x ||
          ((vendorLibsOf 64 [hwObj, plainObj]).map ElfObject.name).contains x ||
          ((([] : List (String × List String)).lookup plainObj.target_dir).getD
            []).contains x)) = ["libforbidden.so"] := by
      have hpred : (ll_ndk.contains "libforbidden.so" ||
          vndk.contains "libforbidden.so" ||
          vndk_sp.contains "libforbidden.so" ||
          ((vendorLibsOf 64 [hwObj, plainObj]).map ElfObject.name).contains
            "libforbidden.so" ||
          ((([] : List (String × List String)).lookup plainObj.target_dir).getD
            []).contains "libforbidden.so") = false := by
        rw [h2, h3, h4, hnames]
        rfl
      show List.filter _ ["libforbidden.so"] = ["libforbidden.so"]
      simp only [List.filter_cons, List.filter_nil, hpred, Bool.not_false, if_true,
        eq_self_iff_true]
    refine ⟨plainObj, hvo, ?_, ?_⟩
    · rw [hfilter]
      simp
    · rw [hfilter]
      rfl
  have hdec : testElfDependency ll_ndk vndk vndk_sp sp_hal [] true 64
      [hwObj, plainObj] =
      (testVendorDependency ll_ndk vndk vndk_sp
        (vendorObjsOf sp_hal [] 64 [hwObj, plainObj])
        (vendorLibsOf 64 [hwObj, plainObj]) ++
       testVndkSpExtDependency ll_ndk vndk_sp
        ((vndkSpExtDepsOf [] 64 [hwObj, plainObj]).filter
          (fun o => !(decide (o ∈ spHalLibsOf sp_hal 64 [hwObj, plainObj]))))
        (vendorLibsOf 64 [hwObj, plainObj])) ++
      testSpHalDependency ll_ndk vndk_sp
        (spHalLibsOf sp_hal 64 [hwObj, plainObj]) := by
    unfold testElfDependency
    simp
  rw [hdec]
  apply List.mem_append_left
  apply List.mem_append_left
  by_cases hm : sp_hal.any (fun pt => pt hwObj.target_path) = true
  · have hlibs : spHalLibsOf sp_hal 64 [hwObj, plainObj] = [hwObj] := by
      simp only [spHalLibsOf]
      rw [hns]
      unfold spHalRootsOf
      simp only [List.map_cons, List.map_nil, List.filter_cons, List.filter_nil, hm,
        if_true]
      decide
    have hvo : vendorObjsOf sp_hal [] 64 [hwObj, plainObj] = [plainObj] := by
      simp only [vendorObjsOf, hlibs, hext]
      decide
    rw [hvo]
    exact main [plainObj] (by decide) (by decide)
  · have hm2 : sp_hal.any (fun pt => pt hwObj.target_path) = false := by
      cases hval : sp_hal.any (fun pt => pt hwObj.target_path) with
      | true => exact absurd hval hm
      | false => rfl
    have hlibs : spHalLibsOf sp_hal 64 [hwObj, plainObj] = [] := by
      simp only [spHalLibsOf]
      rw [hns]
      unfold spHalRootsOf
      simp only [List.map_cons, List.map_nil, List.filter_cons, List.filter_nil, hm2]
      decide
    have hvo : vendorObjsOf sp_hal [] 64 [hwObj, plainObj] = [hwObj, plainObj] := by
      simp only [vendorObjsOf, hlibs, hext]
      decide
    rw [hvo]
    exact main [hwObj, plainObj] (by decide) (by decide)

/-- Claim C1 witness for the amended statement, at concrete golden sets. -/
theorem claim_C1_witness :
    ((["libvndksp.so"] : List String).contains "libvndksp.so" = true ∧
     ([] : List String).contains "libforbidden.so" = false ∧
     (["libvndksp.so"] : List String).contains "libforbidden.so" = false) ∧
    ((findLibsInSpHalNamespace 64 [hwObj, plainObj]).lookup "libhw.so" = some hwObj ∧
     ("/vendor/lib64/libhw.so", ["libforbidden.so"]) ∈
       testElfDependency [] [] ["libvndksp.so"] [] [] true 64 [hwObj, plainObj]) :=
  ⟨⟨by decide, by decide, by decide⟩,
   claim_C1_amended [] [] ["libvndksp.so"] []
     (by decide) (by decide) (by decide) (by decide)⟩

/-- Claim C5 witness: a dependency present in no permitted set is
reported for a concrete extension record. -/
theorem claim_C5_witness :
    extObj ∈ [extObj] ∧ "libvndkonly.so" ∈ extObj.deps ∧
    (∃ e, e ∈ testVndkSpExtDependency [] [] [extObj] [] ∧
      e.1 = extObj.target_path ∧ "libvndkonly.so" ∈ e.2) :=
  ⟨by decide, by decide,
   (claim_C5 [] [] [extObj] [] extObj "libvndkonly.so"
     (by decide) (by decide)).mpr (by decide)⟩

end VndkDep
